import Mathlib

/-!
Verification of the retrieval-augmented question-answering core of the
syllabusai backend against its specification.

The Python sources embedded here:
- `backend/app/services/chat_service.py` (`_search_relevant_chunks`, `ask_question`,
  `_build_context`)
- `backend/app/api/v1/endpoints/chat.py` (`chat_with_course`: source previews,
  rounding, confidence derivation)
- `backend/app/services/rag_service.py` (`process_document`, `_generate_embeddings`)
- `backend/app/services/study_service.py` (`_generate_quiz_set`) together with
  `backend/app/schemas/study.py` (pydantic field constraints)

Database rows are lists of records, SQL queries are list transformations,
machine floats are rationals (exact values) or reals where square roots are
required (cosine similarity), exceptions are `Except`, and external services
(OpenAI embedding/completion calls, the session commit) are oracle parameters.
-/

namespace SyllabusAI

/-- A row of the `document_chunks` table (`app/models.py`, class `DocumentChunk`).
UUIDs are modelled as naturals, the pgvector embedding as a list of rationals. -/
structure Chunk where
  id : Nat
  document_id : Nat
  chunk_index : Nat
  text_content : List Char
  embedding : List Rat
deriving DecidableEq, Repr

/-- A row of the `documents` table, restricted to the fields the retrieval
query joins on (`Document.id`, `Document.course_id`). -/
structure Document where
  id : Nat
  course_id : Nat
deriving DecidableEq, Repr

/-- The join-and-filter of `_search_relevant_chunks`: a chunk is a candidate
when some document row matches its `document_id` and lies in the course. -/
def inCourse (docs : List Document) (courseId : Nat) (c : Chunk) : Bool :=
  docs.any (fun d => c.document_id == d.id && d.course_id == courseId)

/-- `ORDER BY similarity DESC`: `p` may come before `q` when `q`'s score is at
most `p`'s. SQL specifies no secondary key, so ties are unordered; the model
uses a stable sort over row order (see `rankChunks`). -/
def scoreDescOrder {α : Type} [LinearOrder α] (p q : Chunk × α) : Prop :=
  q.2 ≤ p.2

instance {α : Type} [LinearOrder α] : DecidableRel (scoreDescOrder (α := α)) :=
  fun p q => inferInstanceAs (Decidable (q.2 ≤ p.2))

instance {α : Type} [LinearOrder α] : IsTotal (Chunk × α) scoreDescOrder :=
  ⟨fun p q => le_total q.2 p.2⟩

instance {α : Type} [LinearOrder α] : IsTrans (Chunk × α) scoreDescOrder :=
  ⟨fun _ _ _ h h2 => le_trans h2 h⟩

/-- The SELECT of `_search_relevant_chunks` after the join: score every
candidate row, keep rows with `similarity >= similarity_threshold`, sort by
similarity descending (stable in row order), and `LIMIT top_k`. Generic in the
score type so that the same query shape can be run with real cosine scores or
with decidable rational scores. -/
def rankChunks {α : Type} [LinearOrder α] (sim : Chunk → α) (rows : List Chunk)
    (k : Nat) (τ : α) : List (Chunk × α) :=
  (List.insertionSort scoreDescOrder
    ((rows.map (fun c => (c, sim c))).filter (fun p => τ ≤ p.2))).take k

/-- Dot product of two vectors, truncating at the shorter (as pgvector operates
on equal-dimension vectors; unequal lengths never arise in practice). -/
def dotQ (u v : List Rat) : Rat :=
  (List.zipWith (fun a b => a * b) u v).sum

/-- Euclidean norm of a vector. -/
noncomputable def vnorm (u : List Rat) : Real :=
  Real.sqrt ((dotQ u u : Rat) : Real)

/-- pgvector `cosine_distance(u, v) = 1 - <u,v> / (|u| |v|)`. -/
noncomputable def cosineDistance (u v : List Rat) : Real :=
  1 - ((dotQ u v : Rat) : Real) / (vnorm u * vnorm v)

/-- `chat_service.py` line 120: `similarity = 1 - cosine_distance(embedding, query)`.
No clamping is applied anywhere in the query. -/
noncomputable def similarity (q : List Rat) (c : Chunk) : Real :=
  1 - cosineDistance c.embedding q

/-- `_search_relevant_chunks(course_id, query_embedding, top_k, similarity_threshold)`:
join chunks to documents, filter to the course, then score/filter/sort/limit. -/
noncomputable def searchRelevantChunks (courseId : Nat) (q : List Rat)
    (chunks : List Chunk) (docs : List Document) (top_k : Nat) (τ : Real) :
    List (Chunk × Real) :=
  rankChunks (similarity q) (chunks.filter (inCourse docs courseId)) top_k τ

/-- The ordering invariant claimed by the spec for retrieval results: strictly
descending by score, ties broken by ascending `sequence_index` (the source's
`chunk_index`). Stated from the spec for comparison with the code's behaviour. -/
def specRankedOrder (p q : Chunk × Real) : Prop :=
  q.2 < p.2 ∨ (q.2 = p.2 ∧ p.1.chunk_index < q.1.chunk_index)

/-- Confidence labels of `chat.py` (`"low"`, `"medium"`, `"high"`). -/
inductive Confidence where
  | low
  | medium
  | high
deriving DecidableEq, Repr

/-- `chat.py` lines 104-109: `high` when the top score is at least 0.75,
`medium` when at least 0.6, otherwise `low`. -/
def confidenceOf {α : Type} [LinearOrderedField α] (maxScore : α) : Confidence :=
  if 3 / 4 ≤ maxScore then Confidence.high
  else if 3 / 5 ≤ maxScore then Confidence.medium
  else Confidence.low

/-- `chat.py` line 103: `max(score for _, score in chunks_with_scores)`;
Python's `max` raises on an empty sequence, modelled as `none`. -/
def maxScoreOf {α : Type} [LinearOrder α] : List (Chunk × α) → Option α
  | [] => none
  | p :: rest => some (rest.foldl (fun m q => max m q.2) p.2)

/-- The endpoint's confidence computation on a retrieval result list. -/
def chatConfidence {α : Type} [LinearOrderedField α] (results : List (Chunk × α)) :
    Option Confidence :=
  (maxScoreOf results).map confidenceOf

/-- `DocumentSource` of `app/schemas/chat.py`, with the score kept exact. -/
structure DocumentSource (α : Type) where
  chunk_id : String
  text : List Char
  similarity_score : α
deriving DecidableEq, Repr

/-- Python's `round(x, 3)`: the nearest multiple of 1/1000 (the model ignores
the binary-float tie-breaking of CPython, which concerns only exact halves). -/
def round3 {α : Type} [LinearOrderedField α] [FloorRing α] (x : α) : α :=
  ((round (x * 1000) : Int) : α) / 1000

/-- `chat.py` lines 93-100: one response source per retrieved chunk; the text
preview truncates to 200 characters plus `"..."`, the score is rounded to 3
decimal places. (The pydantic schema additionally validates that the rounded
score lies in `[0, 1]`; it never alters the value.) -/
def mkDocumentSource {α : Type} [LinearOrderedField α] [FloorRing α]
    (c : Chunk) (score : α) : DocumentSource α :=
  { chunk_id := toString c.id
    text := if 200 < c.text_content.length
      then c.text_content.take 200 ++ ['.', '.', '.']
      else c.text_content
    similarity_score := round3 score }

/-- Errors surfaced by `ask_question` (`raise ValueError(...)` when retrieval
comes back empty — the spec's `NoRelevantContent`). -/
inductive ChatError where
  | noRelevantContent
deriving DecidableEq, Repr

/-- `_build_context`: number the retrieved chunks from 1 and tag each with its
relevance. The `{score:.2f}` float formatting is opaque, passed as `fmtScore`. -/
def buildContext (fmtScore : Real → String) (results : List (Chunk × Real)) : String :=
  String.intercalate "\n"
    (results.enum.map (fun e =>
      "[Source " ++ toString (e.1 + 1) ++ "] (Relevance: " ++ fmtScore e.2.2 ++ ")\n"
        ++ String.mk e.2.1.text_content ++ "\n"))

/-- The user prompt of `_generate_answer`. -/
def userPrompt (question context : String) : String :=
  "Context from course materials:\n\n" ++ context ++ "\n\nStudent Question: "
    ++ question ++ "\n\nPlease provide a clear, helpful answer based on the context above."

/-- `ask_question` after retrieval: raise when no chunk was retrieved, else
build the context and call the completion model once. The second component
counts calls to the completion service. -/
def askQuestion (complete : String → String) (fmtScore : Real → String)
    (question : String) (retrieved : List (Chunk × Real)) :
    Except ChatError (String × List (Chunk × Real)) × Nat :=
  match retrieved with
  | [] => (Except.error ChatError.noRelevantContent, 0)
  | rs => (Except.ok (complete (userPrompt question (buildContext fmtScore rs)), rs), 1)

/-- A chunk record as written by `process_document` (no database-assigned id). -/
structure StoredChunk where
  document_id : Nat
  text_content : List Char
  chunk_index : Nat
  embedding : List Rat
deriving DecidableEq, Repr

/-- A SQLAlchemy session: rows already committed to the chunk table, plus rows
added to the session but not yet committed. -/
structure DBSession where
  committed : List StoredChunk
  pending : List StoredChunk
deriving DecidableEq, Repr

/-- `session.add(chunk)`. -/
def sessionAdd (s : DBSession) (c : StoredChunk) : DBSession :=
  { s with pending := s.pending ++ [c] }

/-- `session.commit()`: all pending rows become durable atomically. -/
def sessionCommit (s : DBSession) : DBSession :=
  { committed := s.committed ++ s.pending, pending := [] }

/-- `session.rollback()`: pending rows are discarded, committed rows untouched. -/
def sessionRollback (s : DBSession) : DBSession :=
  { s with pending := [] }

/-- `_generate_embeddings` under `@retry(stop=stop_after_attempt(3))`: the
OpenAI batch call is an oracle indexed by attempt number; up to three attempts
are made, and the last failure propagates. -/
def retryEmbed (attempts : Nat → Except Unit (List (List Rat))) :
    Except Unit (List (List Rat)) :=
  match attempts 0 with
  | Except.ok r => Except.ok r
  | Except.error _ =>
    match attempts 1 with
    | Except.ok r => Except.ok r
    | Except.error _ => attempts 2

/-- The save loop of `process_document` step 6: add one `DocumentChunk` per
`(chunk_text, embedding)` pair with `chunk_index = idx`. `failAt` is an oracle
marking the loop iteration at which storage raises; on failure the partially
populated session is returned for the caller's `except` branch. -/
def addChunks (docId : Nat) (idx : Nat) (pairs : List (List Char × List Rat))
    (failAt : Option Nat) (s : DBSession) : Except DBSession DBSession :=
  match pairs with
  | [] => Except.ok s
  | (t, e) :: rest =>
    if failAt = some idx then Except.error s
    else addChunks docId (idx + 1) rest failAt
      (sessionAdd s { document_id := docId, text_content := t, chunk_index := idx, embedding := e })

/-- The chunk rows the save loop produces for `pairs`, starting at index `idx`. -/
def mkStored (docId : Nat) (idx : Nat) : List (List Char × List Rat) → List StoredChunk
  | [] => []
  | (t, e) :: rest =>
    { document_id := docId, text_content := t, chunk_index := idx, embedding := e }
      :: mkStored docId (idx + 1) rest

/-- `process_document` steps 5-6 (extraction and chunking already done,
`chunks` being the splitter output): generate embeddings with retry, then add
every chunk and commit; any exception rolls the session back and propagates.
`commitOk` is the oracle for whether `session.commit()` itself succeeds.
Returns the chunk count on success, paired with the resulting session. -/
def processDocument (docId : Nat) (chunks : List (List Char))
    (attempts : Nat → Except Unit (List (List Rat))) (commitOk : Bool)
    (failAt : Option Nat) (s : DBSession) : Except Unit Nat × DBSession :=
  match retryEmbed attempts with
  | Except.error _ => (Except.error (), s)
  | Except.ok embeddings =>
    match addChunks docId 0 (chunks.zip embeddings) failAt s with
    | Except.error sFail => (Except.error (), sessionRollback sFail)
    | Except.ok sAdded =>
      if commitOk then (Except.ok chunks.length, sessionCommit sAdded)
      else (Except.error (), sessionRollback sAdded)

/-- The committed chunk rows belonging to one document. -/
def chunksOf (docId : Nat) (rows : List StoredChunk) : List StoredChunk :=
  rows.filter (fun c => c.document_id == docId)

/-- Modelled from the spec: the Chunker (section 4.2) is
`langchain_text_splitters.RecursiveCharacterTextSplitter`, third-party code not
present in this repository; only its configuration (`chunk_size=1000`,
`chunk_overlap=200`, character unit) is in `rag_service.py`. Modelled at the
spec's character-level fallback: emit windows of at most `size` characters,
adjacent windows sharing `overlap` characters; a text no longer than `size` is
a single chunk; empty text yields no chunks. The `size ≤ overlap` branch is
outside the spec's precondition `size > overlap ≥ 0` and only forces
termination. -/
def chunkText (size overlap : Nat) (text : List Char) : List (List Char) :=
  if text = [] then []
  else if text.length ≤ size then [text]
  else if size ≤ overlap then [text]
  else text.take size :: chunkText size overlap (text.drop (size - overlap))
termination_by text.length
decreasing_by
  simp only [List.length_drop]
  omega

/-- Reassembly of a chunk sequence: the first chunk whole, every later chunk
with its leading `overlap` shared characters removed. -/
def reconstruct (overlap : Nat) : List (List Char) → List Char
  | [] => []
  | c :: rest => c ++ (rest.map (List.drop overlap)).flatten

/-- A quiz question as produced by the structured-output call
(`app/schemas/study.py`, class `QuizQuestion`); the index is an integer so the
pydantic `ge=0` bound is a genuine check. -/
structure QuizQuestion where
  question : String
  options : List String
  correct_answer_index : Int
  explanation : String
deriving DecidableEq, Repr

/-- `app/schemas/study.py`, class `QuizSet`. -/
structure QuizSet where
  questions : List QuizQuestion
deriving DecidableEq, Repr

/-- The pydantic field constraints on `QuizQuestion`: question 10-500 chars,
2-6 options, `correct_answer_index ≥ 0`, explanation 10-500 chars. -/
def quizQuestionSchemaValid (q : QuizQuestion) : Bool :=
  10 ≤ q.question.length && q.question.length ≤ 500
    && 2 ≤ q.options.length && q.options.length ≤ 6
    && 0 ≤ q.correct_answer_index
    && 10 ≤ q.explanation.length && q.explanation.length ≤ 500

/-- The pydantic constraints on `QuizSet` (3-10 questions, each valid). -/
def quizSetSchemaValid (s : QuizSet) : Bool :=
  3 ≤ s.questions.length && s.questions.length ≤ 10
    && s.questions.all quizQuestionSchemaValid

/-- Failures of `_generate_quiz_set`: instructor rejects schema-invalid model
output; the explicit bounds check raises `ValueError` (the spec's
`InvalidCorrectAnswerIndex`). -/
inductive StudyError where
  | schemaViolation
  | invalidCorrectAnswerIndex
deriving DecidableEq, Repr

/-- `_generate_quiz_set` given the raw structured output `raw`: instructor
validates the pydantic schema, then lines 272-279 reject any question whose
`correct_answer_index` is not below `len(options)`; otherwise the set is
returned unchanged. -/
def generateQuizSet (raw : QuizSet) : Except StudyError QuizSet :=
  if ¬ quizSetSchemaValid raw then Except.error StudyError.schemaViolation
  else if raw.questions.any (fun q => (q.options.length : Int) ≤ q.correct_answer_index)
    then Except.error StudyError.invalidCorrectAnswerIndex
  else Except.ok raw

/-! Concrete sample data used by witnesses and counterexamples. -/

/-- Chunk 5 of document 1, with a one-dimensional unit embedding. -/
def chunkA : Chunk :=
  { id := 10, document_id := 1, chunk_index := 5, text_content := ['x'], embedding := [1] }

/-- Chunk 0 of document 2, same embedding as `chunkA`. -/
def chunkB : Chunk :=
  { id := 20, document_id := 2, chunk_index := 0, text_content := ['y'], embedding := [1] }

/-- A chunk whose embedding points opposite to the query `[1]`. -/
def chunkNeg : Chunk :=
  { id := 30, document_id := 1, chunk_index := 0, text_content := ['z'], embedding := [-1] }

/-- Documents 1 and 2, both in course 7. -/
def sampleDocs : List Document :=
  [{ id := 1, course_id := 7 }, { id := 2, course_id := 7 }]

/-- A quiz question satisfying every pydantic field constraint. -/
def sampleQuizQuestion : QuizQuestion :=
  { question := "What is one plus one?"
    options := ["One", "Two"]
    correct_answer_index := 1
    explanation := "Adding one to one yields two." }

/-- A schema-valid quiz set (three questions, the pydantic minimum). -/
def sampleQuiz : QuizSet :=
  { questions := [sampleQuizQuestion, sampleQuizQuestion, sampleQuizQuestion] }

/-! Helper lemmas shared between claims. -/

/-- Folding `max` over scores all bounded by the start value returns the start
value (the code's `max(...)` over a descending-sorted list is its head). -/
theorem foldl_max_of_le {α : Type} [LinearOrder α] (l : List (Chunk × α)) (m : α)
    (h : ∀ q ∈ l, q.2 ≤ m) : l.foldl (fun acc q => max acc q.2) m = m := by
  induction l with
  | nil => rfl
  | cons b t ih =>
    simp only [List.foldl_cons]
    rw [max_eq_left (h b (List.mem_cons_self b t))]
    exact ih (fun q hq => h q (List.mem_cons_of_mem b hq))

/-- The save loop never touches committed rows, whether it completes or
raises: only `session.commit` moves rows into the table. -/
theorem addChunks_committed (docId : Nat) (pairs : List (List Char × List Rat))
    (failAt : Option Nat) :
    ∀ (idx : Nat) (s s' : DBSession),
      (addChunks docId idx pairs failAt s = Except.ok s' → s'.committed = s.committed) ∧
      (addChunks docId idx pairs failAt s = Except.error s' → s'.committed = s.committed) := by
  induction pairs with
  | nil =>
    intro idx s s'
    constructor
    · intro h
      simp only [addChunks] at h
      cases h
      rfl
    · intro h
      simp only [addChunks] at h
      cases h
  | cons p rest ih =>
    intro idx s s'
    obtain ⟨t, e⟩ := p
    constructor
    · intro h
      simp only [addChunks] at h
      by_cases hf : failAt = some idx
      · rw [if_pos hf] at h
        cases h
      · rw [if_neg hf] at h
        have h2 := (ih (idx + 1)
          (sessionAdd s
            { document_id := docId, text_content := t, chunk_index := idx, embedding := e })
          s').1 h
        simpa [sessionAdd] using h2
    · intro h
      simp only [addChunks] at h
      by_cases hf : failAt = some idx
      · rw [if_pos hf] at h
        cases h
        rfl
      · rw [if_neg hf] at h
        have h2 := (ih (idx + 1)
          (sessionAdd s
            { document_id := docId, text_content := t, chunk_index := idx, embedding := e })
          s').2 h
        simpa [sessionAdd] using h2

/-- When the save loop completes without raising, it has added exactly one row
per `(text, embedding)` pair, in order, with contiguous indices from `idx`. -/
theorem addChunks_ok (docId : Nat) (pairs : List (List Char × List Rat))
    (failAt : Option Nat) :
    ∀ (idx : Nat) (s s' : DBSession),
      addChunks docId idx pairs failAt s = Except.ok s' →
      s' = { s with pending := s.pending ++ mkStored docId idx pairs } := by
  induction pairs with
  | nil =>
    intro idx s s' h
    simp only [addChunks] at h
    cases h
    simp [mkStored]
  | cons p rest ih =>
    intro idx s s' h
    obtain ⟨t, e⟩ := p
    simp only [addChunks] at h
    by_cases hf : failAt = some idx
    · rw [if_pos hf] at h
      cases h
    · rw [if_neg hf] at h
      have := ih (idx + 1) _ s' h
      rw [this]
      simp [sessionAdd, mkStored]

/-- With `failAt = none` the save loop always completes. -/
theorem addChunks_none (docId : Nat) (pairs : List (List Char × List Rat)) :
    ∀ (idx : Nat) (s : DBSession),
      addChunks docId idx pairs none s
        = Except.ok { s with pending := s.pending ++ mkStored docId idx pairs } := by
  induction pairs with
  | nil =>
    intro idx s
    simp [addChunks, mkStored]
  | cons p rest ih =>
    intro idx s
    obtain ⟨t, e⟩ := p
    simp only [addChunks, mkStored]
    rw [if_neg (by simp)]
    rw [ih (idx + 1)]
    simp [sessionAdd]

/-- If every attempt fails, the retry wrapper reports failure. -/
theorem retryEmbed_error (attempts : Nat → Except Unit (List (List Rat)))
    (h : ∀ i, i < 3 → attempts i = Except.error ()) :
    retryEmbed attempts = Except.error () := by
  unfold retryEmbed
  rw [h 0 (by omega), h 1 (by omega), h 2 (by omega)]

/-- A fully successful processing run starting from a clean session: every
chunk is committed, in order, with contiguous indices from 0. -/
theorem processDocument_success (docId : Nat) (chunks : List (List Char))
    (embs : List (List Rat)) (committedRows : List StoredChunk) :
    processDocument docId chunks (fun _ => Except.ok embs) true none
        { committed := committedRows, pending := [] }
      = (Except.ok chunks.length,
          { committed := committedRows ++ mkStored docId 0 (chunks.zip embs), pending := [] }) := by
  simp only [processDocument, retryEmbed]
  rw [addChunks_none docId (chunks.zip embs) 0]
  simp [sessionCommit]

/-- C5: chunk storage is all-or-nothing per document. If every embedding
attempt fails the run errors with the store untouched; on any error the
committed table is unchanged; in every case the committed table is either
unchanged or extended by exactly one row per chunk — never a proper prefix. -/
theorem chunk_storage_all_or_nothing :
    ∀ (docId : Nat) (chunks : List (List Char))
      (attempts : Nat → Except Unit (List (List Rat))) (commitOk : Bool)
      (failAt : Option Nat) (s : DBSession),
      s.pending = [] →
      (((∀ i, i < 3 → attempts i = Except.error ()) →
          processDocument docId chunks attempts commitOk failAt s = (Except.error (), s)) ∧
        ((processDocument docId chunks attempts commitOk failAt s).1 = Except.error () →
          (processDocument docId chunks attempts commitOk failAt s).2.committed
            = s.committed) ∧
        ((processDocument docId chunks attempts commitOk failAt s).2.committed = s.committed ∨
          ∃ embs, retryEmbed attempts = Except.ok embs ∧
            (processDocument docId chunks attempts commitOk failAt s).1
              = Except.ok chunks.length ∧
            (processDocument docId chunks attempts commitOk failAt s).2.committed
              = s.committed ++ mkStored docId 0 (chunks.zip embs))) := by
  intro docId chunks attempts commitOk failAt s hpend
  cases hre : retryEmbed attempts with
  | error u =>
    cases u
    refine ⟨fun _ => ?_, fun _ => ?_, Or.inl ?_⟩ <;>
      simp [processDocument, hre]
  | ok embs =>
    have hnotall : (∀ i, i < 3 → attempts i = Except.error ()) → False := fun h3 =>
      Except.noConfusion ((retryEmbed_error attempts h3).symm.trans hre)
    cases hadd : addChunks docId 0 (chunks.zip embs) failAt s with
    | error sf =>
      have hcom : sf.committed = s.committed :=
        (addChunks_committed docId (chunks.zip embs) failAt 0 s sf).2 hadd
      refine ⟨fun h3 => absurd h3 hnotall, fun _ => ?_, Or.inl ?_⟩ <;>
        simp [processDocument, hre, hadd, sessionRollback, hcom]
    | ok sa =>
      have hsa : sa = { s with pending := s.pending ++ mkStored docId 0 (chunks.zip embs) } :=
        addChunks_ok docId (chunks.zip embs) failAt 0 s sa hadd
      cases commitOk with
      | true =>
        refine ⟨fun h3 => absurd h3 hnotall, fun hbad => ?_, Or.inr ⟨embs, rfl, ?_, ?_⟩⟩
        · exact absurd hbad (by simp [processDocument, hre, hadd])
        · simp only [processDocument, hre, hadd]
          have hlen : (chunks.zip embs).length ≤ chunks.length := by
            simp [List.length_zip]
          simp
        · simp only [processDocument, hre, hadd]
          rw [hsa]
          simp [sessionCommit, hpend]
      | false =>
        refine ⟨fun h3 => absurd h3 hnotall, fun _ => ?_, Or.inl ?_⟩ <;>
          · simp only [processDocument, hre, hadd]
            rw [hsa]
            simp [sessionRollback, hpend]

/-- C5 witness: with all three embedding attempts failing on a clean store,
the run errors and the store is exactly as before (zero chunks stored). -/
theorem chunk_storage_all_or_nothing_witness :
    ({ committed := [], pending := [] } : DBSession).pending = [] ∧
    processDocument 1 [['a']] (fun _ => Except.error ()) true none
        { committed := [], pending := [] }
      = (Except.error (), { committed := [], pending := [] }) :=
  ⟨rfl,
    (chunk_storage_all_or_nothing 1 [['a']] (fun _ => Except.error ()) true none
      { committed := [], pending := [] } rfl).1 (fun _ _ => rfl)⟩

/-- C4 amended: `process_document` never deletes existing rows, so a second
successful run for the same document appends a second full copy of its chunks
(with duplicated indices) instead of reproducing the single-run end state. -/
theorem reprocessing_is_additive :
    ∀ (docId : Nat) (chunks : List (List Char)) (embs : List (List Rat))
      (committedRows : List StoredChunk),
      (processDocument docId chunks (fun _ => Except.ok embs) true none
          (processDocument docId chunks (fun _ => Except.ok embs) true none
            { committed := committedRows, pending := [] }).2).2.committed
        = committedRows ++ mkStored docId 0 (chunks.zip embs)
            ++ mkStored docId 0 (chunks.zip embs) := by
  intro docId chunks embs committedRows
  simp [processDocument_success]

/-- C4 counterexample: processing a two-chunk document twice leaves four
committed rows, not the two a single run leaves — the end state of two runs
differs from the end state of one run. -/
theorem reprocessing_not_idempotent :
    (processDocument 1 [['a'], ['b']] (fun _ => Except.ok [[1], [2]]) true none
        (processDocument 1 [['a'], ['b']] (fun _ => Except.ok [[1], [2]]) true none
          { committed := [], pending := [] }).2).2.committed.length = 4 ∧
    (processDocument 1 [['a'], ['b']] (fun _ => Except.ok [[1], [2]]) true none
        { committed := [], pending := [] }).2.committed.length = 2 ∧
    (processDocument 1 [['a'], ['b']] (fun _ => Except.ok [[1], [2]]) true none
        (processDocument 1 [['a'], ['b']] (fun _ => Except.ok [[1], [2]]) true none
          { committed := [], pending := [] }).2).2.committed
      ≠ (processDocument 1 [['a'], ['b']] (fun _ => Except.ok [[1], [2]]) true none
          { committed := [], pending := [] }).2.committed := by
  have h1 : (processDocument 1 [['a'], ['b']] (fun _ => Except.ok [[1], [2]]) true none
      (processDocument 1 [['a'], ['b']] (fun _ => Except.ok [[1], [2]]) true none
        { committed := [], pending := [] }).2).2.committed.length = 4 := by
    simp [processDocument_success, mkStored]
  have h2 : (processDocument 1 [['a'], ['b']] (fun _ => Except.ok [[1], [2]]) true none
      { committed := [], pending := [] }).2.committed.length = 2 := by
    simp [processDocument_success, mkStored]
  refine ⟨h1, h2, fun he => ?_⟩
  rw [he, h2] at h1
  norm_num at h1

/-- Dropping the shared overlap from every chunk and concatenating yields the
input minus its first `overlap` characters. -/
theorem chunkText_flatten_drop (size overlap : Nat) (h : overlap < size)
    (text : List Char) :
    ((chunkText size overlap text).map (List.drop overlap)).flatten
      = List.drop overlap text := by
  by_cases h0 : text = []
  · subst h0
    rw [chunkText]
    simp
  · by_cases h1 : text.length ≤ size
    · rw [chunkText, if_neg h0, if_pos h1]
      simp
    · rw [chunkText, if_neg h0, if_neg h1, if_neg (by omega)]
      rw [List.map_cons, List.flatten_cons,
        chunkText_flatten_drop size overlap h (text.drop (size - overlap))]
      rw [List.drop_drop, List.drop_take]
      rw [show size - overlap + overlap = size from by omega]
      calc List.take (size - overlap) (List.drop overlap text)
            ++ List.drop size text
          = List.take (size - overlap) (List.drop overlap text)
            ++ List.drop (size - overlap) (List.drop overlap text) := by
            rw [List.drop_drop]
            rw [show overlap + (size - overlap) = size from by omega]
      _ = List.drop overlap text := List.take_append_drop _ _
termination_by text.length
decreasing_by
  simp only [List.length_drop]
  omega

/-- No chunk emitted by the splitter is longer than `size`. -/
theorem chunkText_length_le (size overlap : Nat) (h : overlap < size) (text : List Char) :
    ∀ c ∈ chunkText size overlap text, c.length ≤ size := by
  by_cases h0 : text = []
  · subst h0
    rw [chunkText]
    simp
  · by_cases h1 : text.length ≤ size
    · rw [chunkText, if_neg h0, if_pos h1]
      simpa using h1
    · rw [chunkText, if_neg h0, if_neg h1, if_neg (by omega)]
      intro c hc
      rcases List.mem_cons.mp hc with hc | hc
      · subst hc
        simp [List.length_take]
      · exact chunkText_length_le size overlap h (text.drop (size - overlap)) c hc
termination_by text.length
decreasing_by
  simp only [List.length_drop]
  omega

/-- C3 (spec-modelled chunker): with `size > overlap ≥ 0`, no chunk exceeds
`size` characters, reassembling the chunks (each later chunk stripped of its
`overlap` shared leading characters) reproduces the input exactly, and empty
input produces an empty chunk sequence. -/
theorem chunker_bounds_and_reconstruction :
    ∀ (size overlap : Nat) (text : List Char), overlap < size →
      (∀ c ∈ chunkText size overlap text, c.length ≤ size) ∧
      reconstruct overlap (chunkText size overlap text) = text ∧
      chunkText size overlap [] = [] := by
  intro size overlap text h
  refine ⟨chunkText_length_le size overlap h text, ?_, by rw [chunkText]; simp⟩
  by_cases h0 : text = []
  · subst h0
    rw [chunkText]
    simp [reconstruct]
  · by_cases h1 : text.length ≤ size
    · rw [chunkText, if_neg h0, if_pos h1]
      simp [reconstruct]
    · rw [chunkText, if_neg h0, if_neg h1, if_neg (by omega)]
      rw [reconstruct, chunkText_flatten_drop size overlap h]
      rw [List.drop_drop]
      rw [show size - overlap + overlap = size from by omega]
      exact List.take_append_drop _ _

/-- C3 witness: concrete parameters 3 > 1 ≥ 0 on the text `"abcde"`. -/
theorem chunker_bounds_and_reconstruction_witness :
    1 < 3 ∧
    reconstruct 1 (chunkText 3 1 ['a', 'b', 'c', 'd', 'e']) = ['a', 'b', 'c', 'd', 'e'] ∧
    chunkText 3 1 [] = [] :=
  ⟨by norm_num,
    (chunker_bounds_and_reconstruction 3 1 ['a', 'b', 'c', 'd', 'e'] (by norm_num)).2.1,
    (chunker_bounds_and_reconstruction 3 1 ['a', 'b', 'c', 'd', 'e'] (by norm_num)).2.2⟩

/-- A dot product of a vector with itself is a sum of squares. -/
theorem dotQ_self_nonneg (u : List Rat) : 0 ≤ dotQ u u := by
  induction u with
  | nil => simp [dotQ]
  | cons a t ih =>
    have h : dotQ (a :: t) (a :: t) = a * a + dotQ t t := by
      simp [dotQ, List.zipWith]
    rw [h]
    nlinarith [sq_nonneg a]

/-- Cauchy-Schwarz for the truncating list dot product. -/
theorem dotQ_cauchy_schwarz (u : List Rat) : ∀ v : List Rat,
    dotQ u v ^ 2 ≤ dotQ u u * dotQ v v := by
  induction u with
  | nil =>
    intro v
    simp [dotQ]
  | cons a t ih =>
    intro v
    cases v with
    | nil =>
      simp [dotQ]
    | cons b w =>
      have h1 : dotQ (a :: t) (b :: w) = a * b + dotQ t w := by
        simp [dotQ, List.zipWith]
      have h2 : dotQ (a :: t) (a :: t) = a * a + dotQ t t := by
        simp [dotQ, List.zipWith]
      have h3 : dotQ (b :: w) (b :: w) = b * b + dotQ w w := by
        simp [dotQ, List.zipWith]
      rw [h1, h2, h3]
      have hd := ih w
      have hsu := dotQ_self_nonneg t
      have hsv := dotQ_self_nonneg w
      rcases le_or_lt (a * b * dotQ t w) 0 with habd | habd
      · nlinarith [mul_nonneg (sq_nonneg a) hsv, mul_nonneg (sq_nonneg b) hsu]
      · have hX : 0 ≤ a ^ 2 * dotQ w w + b ^ 2 * dotQ t t := by positivity
        have hsq : (2 * (a * b * dotQ t w)) ^ 2
            ≤ (a ^ 2 * dotQ w w + b ^ 2 * dotQ t t) ^ 2 := by
          nlinarith [sq_nonneg (a ^ 2 * dotQ w w - b ^ 2 * dotQ t t), sq_nonneg (a * b)]
        have hle : 2 * (a * b * dotQ t w) ≤ a ^ 2 * dotQ w w + b ^ 2 * dotQ t t :=
          le_of_pow_le_pow_left₀ (by norm_num) hX hsq
        nlinarith [hle]

/-- The similarity the query computes is the cosine of the two vectors. -/
theorem similarity_eq_div (q : List Rat) (c : Chunk) :
    similarity q c = ((dotQ c.embedding q : Rat) : Real) / (vnorm c.embedding * vnorm q) := by
  simp only [similarity, cosineDistance]
  ring

/-- Cosine similarity always lies in `[-1, 1]` (division by a zero norm is 0
in the model, which also lies inside). -/
theorem similarity_mem_Icc (q : List Rat) (c : Chunk) :
    -1 ≤ similarity q c ∧ similarity q c ≤ 1 := by
  rw [similarity_eq_div]
  set D : Real := ((dotQ c.embedding q : Rat) : Real) with hD
  have hnu : 0 ≤ vnorm c.embedding := Real.sqrt_nonneg _
  have hnv : 0 ≤ vnorm q := Real.sqrt_nonneg _
  have hnn : 0 ≤ vnorm c.embedding * vnorm q := mul_nonneg hnu hnv
  have hsq : D ^ 2 ≤ (vnorm c.embedding * vnorm q) ^ 2 := by
    have hcs := dotQ_cauchy_schwarz c.embedding q
    have hcast : D ^ 2 ≤ ((dotQ c.embedding c.embedding * dotQ q q : Rat) : Real) := by
      rw [hD]
      push_cast
      exact_mod_cast hcs
    have hexp : (vnorm c.embedding * vnorm q) ^ 2
        = ((dotQ c.embedding c.embedding * dotQ q q : Rat) : Real) := by
      rw [mul_pow]
      simp only [vnorm]
      rw [Real.sq_sqrt (by exact_mod_cast dotQ_self_nonneg c.embedding),
        Real.sq_sqrt (by exact_mod_cast dotQ_self_nonneg q)]
      push_cast
      ring
    rw [hexp]
    exact hcast
  have habs : |D| ≤ vnorm c.embedding * vnorm q := by
    have h1 : |D| ^ 2 ≤ (vnorm c.embedding * vnorm q) ^ 2 := by
      rw [sq_abs]
      exact hsq
    exact le_of_pow_le_pow_left₀ (by norm_num) hnn h1
  rcases eq_or_lt_of_le hnn with hz | hpos
  · rw [← hz, div_zero]
    norm_num
  · constructor
    · rw [le_div_iff₀ hpos]
      have := (abs_le.mp habs).1
      linarith
    · rw [div_le_one hpos]
      exact (abs_le.mp habs).2

/-- The query returns at most `LIMIT` rows. -/
theorem rankChunks_length_le {α : Type} [LinearOrder α] (sim : Chunk → α)
    (rows : List Chunk) (k : Nat) (τ : α) :
    (rankChunks sim rows k τ).length ≤ k :=
  List.length_take_le k _

/-- The query output is sorted non-strictly descending by score. -/
theorem rankChunks_sorted {α : Type} [LinearOrder α] (sim : Chunk → α)
    (rows : List Chunk) (k : Nat) (τ : α) :
    List.Pairwise scoreDescOrder (rankChunks sim rows k τ) :=
  (List.sorted_insertionSort scoreDescOrder _).sublist (List.take_sublist k _)

/-- Every returned pair is a scored row from the candidate set that cleared
the threshold. -/
theorem rankChunks_mem {α : Type} [LinearOrder α] (sim : Chunk → α)
    (rows : List Chunk) (k : Nat) (τ : α) (p : Chunk × α)
    (hp : p ∈ rankChunks sim rows k τ) :
    p.1 ∈ rows ∧ p.2 = sim p.1 ∧ τ ≤ p.2 := by
  have h1 : p ∈ List.insertionSort scoreDescOrder
      ((rows.map (fun c => (c, sim c))).filter (fun r => τ ≤ r.2)) :=
    List.mem_of_mem_take hp
  have h2 : p ∈ (rows.map (fun c => (c, sim c))).filter (fun r => τ ≤ r.2) :=
    (List.perm_insertionSort scoreDescOrder _).mem_iff.mp h1
  rw [List.mem_filter] at h2
  obtain ⟨hmap, hτ⟩ := h2
  obtain ⟨c, hc, hcp⟩ := List.mem_map.mp hmap
  refine ⟨?_, ?_, by simpa using hτ⟩
  · rw [← hcp]
    exact hc
  · rw [← hcp]

/-- Inserting an element no smaller than everything in `v` into `u ++ v`
inserts it into `u` (or at the boundary). -/
theorem orderedInsert_append_of_le {α : Type} [LinearOrder α] (a : Chunk × α) :
    ∀ (u v : List (Chunk × α)), (∀ y ∈ v, y.2 ≤ a.2) →
      List.orderedInsert scoreDescOrder a (u ++ v)
        = List.orderedInsert scoreDescOrder a u ++ v := by
  intro u
  induction u with
  | nil =>
    intro v hv
    cases v with
    | nil => rfl
    | cons y ys =>
      simp only [List.nil_append, List.orderedInsert]
      rw [if_pos (show scoreDescOrder a y from hv y (List.mem_cons_self y ys))]
      rfl
  | cons b u ih =>
    intro v hv
    simp only [List.cons_append, List.orderedInsert, List.append_eq]
    by_cases hb : scoreDescOrder a b
    · rw [if_pos hb, if_pos hb]
      rfl
    · rw [if_neg hb, if_neg hb, ih v hv]
      rfl

/-- Inserting an element strictly smaller than everything in `u` into
`u ++ v` inserts it into `v`. -/
theorem orderedInsert_append_of_gt {α : Type} [LinearOrder α] (a : Chunk × α) :
    ∀ (u v : List (Chunk × α)), (∀ y ∈ u, a.2 < y.2) →
      List.orderedInsert scoreDescOrder a (u ++ v)
        = u ++ List.orderedInsert scoreDescOrder a v := by
  intro u
  induction u with
  | nil =>
    intro v _
    rfl
  | cons b u ih =>
    intro v hu
    simp only [List.cons_append, List.orderedInsert, List.append_eq]
    rw [if_neg (by
      show ¬ scoreDescOrder a b
      exact not_le.mpr (hu b (List.mem_cons_self b u)))]
    rw [ih v (fun y hy => hu y (List.mem_cons_of_mem b hy))]

/-- Sorting a filter at the lower threshold splits as the sort at the higher
threshold followed by the sorted band between the thresholds. -/
theorem sort_filter_split {α : Type} [LinearOrder α] (τ1 τ2 : α) (hτ : τ1 ≤ τ2) :
    ∀ l : List (Chunk × α),
      List.insertionSort scoreDescOrder (l.filter (fun p => τ1 ≤ p.2))
        = List.insertionSort scoreDescOrder (l.filter (fun p => τ2 ≤ p.2))
          ++ List.insertionSort scoreDescOrder
              (l.filter (fun p => τ1 ≤ p.2 ∧ p.2 < τ2)) := by
  intro l
  induction l with
  | nil => rfl
  | cons a t ih =>
    by_cases h2 : τ2 ≤ a.2
    · have h1 : τ1 ≤ a.2 := le_trans hτ h2
      rw [List.filter_cons, List.filter_cons, List.filter_cons]
      rw [if_pos (by simpa using h1), if_pos (by simpa using h2),
        if_neg (by
          simp only [decide_eq_true_eq]
          exact fun hmid => absurd hmid.2 (not_lt.mpr h2))]
      show List.orderedInsert scoreDescOrder a
          (List.insertionSort scoreDescOrder (t.filter (fun p => τ1 ≤ p.2))) = _
      rw [ih]
      rw [orderedInsert_append_of_le a _ _ (fun y hy => ?_)]
      · rfl
      · have hy2 : y ∈ t.filter (fun p => τ1 ≤ p.2 ∧ p.2 < τ2) :=
          (List.perm_insertionSort scoreDescOrder _).mem_iff.mp hy
        rw [List.mem_filter] at hy2
        have := (decide_eq_true_eq.mp hy2.2).2
        exact le_trans (le_of_lt this) h2
    · by_cases h1 : τ1 ≤ a.2
      · rw [List.filter_cons, List.filter_cons, List.filter_cons]
        rw [if_pos (by simpa using h1), if_neg (by simpa using h2),
          if_pos (by
            simp only [decide_eq_true_eq]
            exact ⟨h1, not_le.mp h2⟩)]
        show List.orderedInsert scoreDescOrder a
            (List.insertionSort scoreDescOrder (t.filter (fun p => τ1 ≤ p.2))) = _
        rw [ih]
        rw [orderedInsert_append_of_gt a _ _ (fun y hy => ?_)]
        · rfl
        · have hy2 : y ∈ t.filter (fun p => τ2 ≤ p.2) :=
            (List.perm_insertionSort scoreDescOrder _).mem_iff.mp hy
          rw [List.mem_filter] at hy2
          have := decide_eq_true_eq.mp hy2.2
          exact lt_of_lt_of_le (not_le.mp h2) this
      · rw [List.filter_cons, List.filter_cons, List.filter_cons]
        rw [if_neg (by simpa using h1), if_neg (by simpa using h2),
          if_neg (by
            simp only [decide_eq_true_eq]
            exact fun hmid => absurd hmid.1 h1)]
        exact ih

/-- Raising the threshold can only shrink the ranked result, elementwise. -/
theorem rankChunks_threshold_monotone {α : Type} [LinearOrder α] (sim : Chunk → α)
    (rows : List Chunk) (k : Nat) (τ1 τ2 : α) (hτ : τ1 ≤ τ2) :
    rankChunks sim rows k τ2 ⊆ rankChunks sim rows k τ1 := by
  intro x hx
  unfold rankChunks at hx ⊢
  rw [sort_filter_split τ1 τ2 hτ, List.take_append_eq_append_take]
  exact List.mem_append_left _ hx

/-- A chunk whose embedding is the unit vector `[1]` scores 1 against the
query `[1]`. -/
theorem similarity_embedding_one (c : Chunk) (h : c.embedding = [1]) :
    similarity [1] c = 1 := by
  rw [similarity_eq_div, h]
  have hd : dotQ [1] [1] = 1 := by
    norm_num [dotQ]
  simp only [vnorm, hd]
  push_cast
  rw [Real.sqrt_one]
  norm_num

/-- A chunk whose embedding is `[-1]` scores -1 against the query `[1]`. -/
theorem similarity_embedding_negone (c : Chunk) (h : c.embedding = [-1]) :
    similarity [1] c = -1 := by
  rw [similarity_eq_div, h]
  have hd1 : dotQ [-1] [1] = -1 := by
    norm_num [dotQ]
  have hd2 : dotQ [-1] [-1] = 1 := by
    norm_num [dotQ]
  have hd3 : dotQ [1] [1] = 1 := by
    norm_num [dotQ]
  simp only [vnorm, hd1, hd2, hd3]
  push_cast
  rw [Real.sqrt_one]
  norm_num

/-- Concrete evaluation: both sample chunks tie at score 1, and the result
preserves row order `[chunkA, chunkB]` (indices 5 then 0). -/
theorem searchAB_eval :
    searchRelevantChunks 7 [1] [chunkA, chunkB] sampleDocs 5 (1 / 2)
      = [(chunkA, 1), (chunkB, 1)] := by
  have hA : similarity [1] chunkA = 1 := similarity_embedding_one chunkA rfl
  have hB : similarity [1] chunkB = 1 := similarity_embedding_one chunkB rfl
  unfold searchRelevantChunks
  have hfil : [chunkA, chunkB].filter (inCourse sampleDocs 7) = [chunkA, chunkB] := rfl
  rw [hfil]
  unfold rankChunks
  rw [List.map_cons, List.map_cons, List.map_nil, hA, hB]
  have h12 : ((1 : Real) / 2 ≤ 1) := by norm_num
  rw [List.filter_cons, List.filter_cons, List.filter_nil]
  rw [if_pos (by simpa using h12), if_pos (by simpa using h12)]
  simp only [List.insertionSort, List.orderedInsert]
  rw [if_pos (show scoreDescOrder (chunkA, (1 : Real)) (chunkB, 1) from le_refl 1)]
  rfl

/-- Concrete evaluation: with threshold -1, the opposite-pointing chunk is
returned with its raw negative score. -/
theorem searchNeg_eval :
    searchRelevantChunks 7 [1] [chunkNeg] sampleDocs 1 (-1) = [(chunkNeg, -1)] := by
  have hN : similarity [1] chunkNeg = -1 := similarity_embedding_negone chunkNeg rfl
  unfold searchRelevantChunks
  have hfil : [chunkNeg].filter (inCourse sampleDocs 7) = [chunkNeg] := rfl
  rw [hfil]
  unfold rankChunks
  rw [List.map_cons, List.map_nil, hN]
  rw [List.filter_cons, List.filter_nil]
  rw [if_pos (by simp)]
  rfl

/-- C2 amended: every retrieval result is sorted non-strictly descending by
score, has length at most `k`, and contains only scores at least `τ`; the
code supplies no tie-break, so tie order is row order, not `chunk_index`. -/
theorem retrieval_sorted_bounded_filtered :
    ∀ (courseId : Nat) (q : List Rat) (chunks : List Chunk) (docs : List Document)
      (k : Nat) (τ : Real),
      (searchRelevantChunks courseId q chunks docs k τ).length ≤ k ∧
      List.Pairwise scoreDescOrder (searchRelevantChunks courseId q chunks docs k τ) ∧
      ∀ p ∈ searchRelevantChunks courseId q chunks docs k τ, τ ≤ p.2 :=
  fun _ _ _ _ _ _ =>
    ⟨rankChunks_length_le _ _ _ _, rankChunks_sorted _ _ _ _,
      fun p hp => (rankChunks_mem _ _ _ _ p hp).2.2⟩

/-- C2 witness: the concrete two-chunk search respects the bound `k = 5`, and
its member `(chunkA, 1)` clears the threshold 1/2. -/
theorem retrieval_sorted_bounded_filtered_witness :
    (searchRelevantChunks 7 [1] [chunkA, chunkB] sampleDocs 5 (1 / 2)).length ≤ 5 ∧
    (chunkA, (1 : Real)) ∈ searchRelevantChunks 7 [1] [chunkA, chunkB] sampleDocs 5 (1 / 2) ∧
    (1 / 2 : Real) ≤ (chunkA, (1 : Real)).2 := by
  have hmem : (chunkA, (1 : Real))
      ∈ searchRelevantChunks 7 [1] [chunkA, chunkB] sampleDocs 5 (1 / 2) := by
    rw [searchAB_eval]
    exact List.mem_cons_self _ _
  exact ⟨(retrieval_sorted_bounded_filtered 7 [1] [chunkA, chunkB] sampleDocs 5 (1 / 2)).1,
    hmem,
    (retrieval_sorted_bounded_filtered 7 [1] [chunkA, chunkB] sampleDocs 5 (1 / 2)).2.2
      (chunkA, 1) hmem⟩

/-- C2 counterexample: two chunks with equal scores come back in row order
`(index 5, score 1), (index 0, score 1)` — neither strictly descending in
score nor tie-broken by ascending `chunk_index`. -/
theorem retrieval_tie_order_counterexample :
    searchRelevantChunks 7 [1] [chunkA, chunkB] sampleDocs 5 (1 / 2)
      = [(chunkA, 1), (chunkB, 1)] ∧
    chunkA.chunk_index = 5 ∧ chunkB.chunk_index = 0 ∧
    ¬ List.Pairwise specRankedOrder
        (searchRelevantChunks 7 [1] [chunkA, chunkB] sampleDocs 5 (1 / 2)) := by
  refine ⟨searchAB_eval, rfl, rfl, ?_⟩
  rw [searchAB_eval]
  intro hpw
  have h := (List.pairwise_cons.mp hpw).1 (chunkB, 1) (List.mem_cons_self _ _)
  rcases h with h | h
  · exact absurd h (lt_irrefl 1)
  · have h5 : chunkA.chunk_index < chunkB.chunk_index := h.2
    norm_num [chunkA, chunkB] at h5

/-- C6: raising the similarity threshold only removes results — the list at
`τ2` is contained in the list at `τ1 ≤ τ2` (in fact it is a prefix). -/
theorem retrieval_threshold_monotone :
    ∀ (courseId : Nat) (q : List Rat) (chunks : List Chunk) (docs : List Document)
      (k : Nat) (τ1 τ2 : Real), τ1 ≤ τ2 →
      searchRelevantChunks courseId q chunks docs k τ2
        ⊆ searchRelevantChunks courseId q chunks docs k τ1 :=
  fun _ _ _ _ k τ1 τ2 hτ => rankChunks_threshold_monotone _ _ k τ1 τ2 hτ

/-- C6 witness: concrete thresholds 1/2 ≤ 3/4 on the two-chunk sample store. -/
theorem retrieval_threshold_monotone_witness :
    (1 / 2 : Real) ≤ 3 / 4 ∧
    searchRelevantChunks 7 [1] [chunkA, chunkB] sampleDocs 5 (3 / 4)
      ⊆ searchRelevantChunks 7 [1] [chunkA, chunkB] sampleDocs 5 (1 / 2) :=
  ⟨by norm_num,
    retrieval_threshold_monotone 7 [1] [chunkA, chunkB] sampleDocs 5 (1 / 2) (3 / 4)
      (by norm_num)⟩

/-- C8 amended: every returned score is exactly `1 - cosine_distance`, with no
clamping; it is at least the caller's threshold and always lies in `[-1, 1]`
(so scores below 0 can be returned whenever `τ < 0`). -/
theorem retrieval_score_unclamped_formula :
    ∀ (courseId : Nat) (q : List Rat) (chunks : List Chunk) (docs : List Document)
      (k : Nat) (τ : Real) (p : Chunk × Real),
      p ∈ searchRelevantChunks courseId q chunks docs k τ →
      p.2 = similarity q p.1 ∧ τ ≤ p.2 ∧ -1 ≤ p.2 ∧ p.2 ≤ 1 := by
  intro courseId q chunks docs k τ p hp
  obtain ⟨_, heq, hτ⟩ := rankChunks_mem _ _ _ _ p hp
  obtain ⟨hlo, hhi⟩ := similarity_mem_Icc q p.1
  exact ⟨heq, hτ, by rw [heq]; exact hlo, by rw [heq]; exact hhi⟩

/-- C8 witness: the returned pair `(chunkA, 1)` carries the exact cosine
similarity of its embedding with the query, above the threshold 1/2. -/
theorem retrieval_score_unclamped_formula_witness :
    (chunkA, (1 : Real)) ∈ searchRelevantChunks 7 [1] [chunkA, chunkB] sampleDocs 5 (1 / 2) ∧
    ((1 : Real) = similarity [1] chunkA ∧ (1 / 2 : Real) ≤ 1 ∧
      (-1 : Real) ≤ 1 ∧ (1 : Real) ≤ 1) := by
  have hmem : (chunkA, (1 : Real))
      ∈ searchRelevantChunks 7 [1] [chunkA, chunkB] sampleDocs 5 (1 / 2) := by
    rw [searchAB_eval]
    exact List.mem_cons_self _ _
  exact ⟨hmem,
    retrieval_score_unclamped_formula 7 [1] [chunkA, chunkB] sampleDocs 5 (1 / 2)
      (chunkA, 1) hmem⟩

/-- C8 counterexample: with `τ = -1`, a chunk pointing opposite the query is
returned with score -1, which lies outside `[0, 1]` — nothing was clamped. -/
theorem retrieval_score_clamping_counterexample :
    searchRelevantChunks 7 [1] [chunkNeg] sampleDocs 1 (-1) = [(chunkNeg, -1)] ∧
    (-1 : Real) < 0 ∧ ¬ (0 ≤ (-1 : Real) ∧ (-1 : Real) ≤ 1) :=
  ⟨searchNeg_eval, by norm_num, by norm_num⟩

/-- C7: an empty retrieval list is an ordinary value; `ask_question` then
raises `NoRelevantContent` before the completion model is ever called (the
call counter stays 0). In particular a scope with no chunks retrieves `[]`. -/
theorem empty_retrieval_raises_no_relevant_content :
    ∀ (complete : String → String) (fmtScore : Real → String) (question : String),
      (∀ retrieved : List (Chunk × Real), retrieved = [] →
        askQuestion complete fmtScore question retrieved
          = (Except.error ChatError.noRelevantContent, 0)) ∧
      (∀ (courseId : Nat) (q : List Rat) (chunks : List Chunk) (docs : List Document)
        (k : Nat) (τ : Real),
        chunks.filter (inCourse docs courseId) = [] →
        searchRelevantChunks courseId q chunks docs k τ = [] ∧
        askQuestion complete fmtScore question
            (searchRelevantChunks courseId q chunks docs k τ)
          = (Except.error ChatError.noRelevantContent, 0)) := by
  intro complete fmtScore question
  constructor
  · intro retrieved h
    rw [h]
    rfl
  · intro courseId q chunks docs k τ hempty
    have hsearch : searchRelevantChunks courseId q chunks docs k τ = [] := by
      unfold searchRelevantChunks rankChunks
      rw [hempty]
      simp
    refine ⟨hsearch, ?_⟩
    rw [hsearch]
    rfl

/-- C7 witness: a store holding one chunk of a different course retrieves
nothing, and the synthesizer errors with zero completion calls. -/
theorem empty_retrieval_raises_no_relevant_content_witness :
    [chunkA].filter (inCourse [] 7) = [] ∧
    searchRelevantChunks 7 [1] [chunkA] [] 5 (1 / 2) = [] ∧
    askQuestion (fun _ => "answer") (fun _ => "s") "What is covered in week 1?"
        (searchRelevantChunks 7 [1] [chunkA] [] 5 (1 / 2))
      = (Except.error ChatError.noRelevantContent, 0) := by
  have hf : [chunkA].filter (inCourse [] 7) = [] := rfl
  have h := (empty_retrieval_raises_no_relevant_content (fun _ => "answer") (fun _ => "s")
    "What is covered in week 1?").2 7 [1] [chunkA] [] 5 (1 / 2) hf
  exact ⟨hf, h.1, h.2⟩

/-- C1: the confidence label computed by `chat_with_course` on a
descending-sorted, non-empty result list is a pure function of the top
result's score with thresholds 0.75 and 0.6, and the scores 0.8, 0.65, 0.4
map to high, medium, low. -/
theorem confidence_pure_function_of_top_score :
    (∀ {α : Type} [LinearOrderedField α] (p : Chunk × α) (rest : List (Chunk × α)),
        List.Pairwise scoreDescOrder (p :: rest) →
        chatConfidence (p :: rest)
          = some (if 3 / 4 ≤ p.2 then Confidence.high
              else if 3 / 5 ≤ p.2 then Confidence.medium else Confidence.low)) ∧
    confidenceOf (0.8 : Rat) = Confidence.high ∧
    confidenceOf (0.65 : Rat) = Confidence.medium ∧
    confidenceOf (0.4 : Rat) = Confidence.low := by
  refine ⟨?_, by norm_num [confidenceOf], by norm_num [confidenceOf], by norm_num [confidenceOf]⟩
  intro α _ p rest h
  have hb : ∀ q ∈ rest, q.2 ≤ p.2 := fun q hq => (List.pairwise_cons.mp h).1 q hq
  simp only [chatConfidence, maxScoreOf, foldl_max_of_le rest p.2 hb, Option.map_some]
  rfl

/-- C1 witness: a concrete sorted two-element result list with top score 0.8
gets confidence `high`. -/
theorem confidence_pure_function_of_top_score_witness :
    List.Pairwise scoreDescOrder [(chunkA, (0.8 : Rat)), (chunkB, (0.5 : Rat))] ∧
    chatConfidence [(chunkA, (0.8 : Rat)), (chunkB, (0.5 : Rat))] = some Confidence.high := by
  have hpw : List.Pairwise scoreDescOrder [(chunkA, (0.8 : Rat)), (chunkB, (0.5 : Rat))] := by
    refine List.Pairwise.cons (fun a ha => ?_)
      (List.Pairwise.cons (fun a ha => absurd ha (List.not_mem_nil a)) List.Pairwise.nil)
    simp only [List.mem_singleton] at ha
    subst ha
    show (0.5 : Rat) ≤ 0.8
    norm_num
  refine ⟨hpw, ?_⟩
  rw [confidence_pure_function_of_top_score.1 (chunkA, (0.8 : Rat)) [(chunkB, (0.5 : Rat))] hpw]
  norm_num

/-- C9: `_generate_quiz_set` returns a quiz only when every question's
`correct_answer_index` is in range for its options, and returns it unchanged
(no clamping); any out-of-range index makes the whole generation fail. -/
theorem quiz_out_of_range_index_rejected :
    (∀ raw qs, generateQuizSet raw = Except.ok qs →
        qs = raw ∧ ∀ q ∈ qs.questions,
          0 ≤ q.correct_answer_index ∧ q.correct_answer_index < (q.options.length : Int)) ∧
    (∀ raw q, q ∈ raw.questions →
        ¬ (0 ≤ q.correct_answer_index ∧ q.correct_answer_index < (q.options.length : Int)) →
        ∃ e, generateQuizSet raw = Except.error e) := by
  constructor
  · intro raw qs hok
    unfold generateQuizSet at hok
    by_cases hval : quizSetSchemaValid raw = true
    · rw [if_neg (by simp [hval])] at hok
      by_cases hany :
          raw.questions.any (fun q => (q.options.length : Int) ≤ q.correct_answer_index) = true
      · rw [if_pos hany] at hok
        exact absurd hok (by simp)
      · rw [if_neg hany] at hok
        have hqs : raw = qs := by
          simpa using hok
        refine ⟨hqs.symm, fun q hq => ?_⟩
        have hq' : q ∈ raw.questions := by
          rw [hqs]
          exact hq
        have hge : 0 ≤ q.correct_answer_index := by
          have hvs : ∀ r ∈ raw.questions, quizQuestionSchemaValid r = true := by
            have h2 := hval
            simp only [quizSetSchemaValid, Bool.and_eq_true, List.all_eq_true] at h2
            exact h2.2
          have hqv := hvs q hq'
          simp only [quizQuestionSchemaValid, Bool.and_eq_true, decide_eq_true_eq] at hqv
          tauto
        have hlt : q.correct_answer_index < (q.options.length : Int) := by
          rw [List.any_eq_true] at hany
          push_neg at hany
          have := hany q hq'
          simpa using this
        exact ⟨hge, hlt⟩
    · rw [if_pos (by simp [hval])] at hok
      exact absurd hok (by simp)
  · intro raw q hq hbad
    unfold generateQuizSet
    by_cases hval : quizSetSchemaValid raw = true
    · have hge : 0 ≤ q.correct_answer_index := by
        have hvs : ∀ r ∈ raw.questions, quizQuestionSchemaValid r = true := by
          have h2 := hval
          simp only [quizSetSchemaValid, Bool.and_eq_true, List.all_eq_true] at h2
          exact h2.2
        have hqv := hvs q hq
        simp only [quizQuestionSchemaValid, Bool.and_eq_true, decide_eq_true_eq] at hqv
        tauto
      have hlen : (q.options.length : Int) ≤ q.correct_answer_index := by
        by_contra hc
        exact hbad ⟨hge, lt_of_not_le hc⟩
      have hany :
          raw.questions.any (fun r => (r.options.length : Int) ≤ r.correct_answer_index) = true :=
        List.any_eq_true.mpr ⟨q, hq, by simpa using hlen⟩
      rw [if_neg (by simp [hval]), if_pos hany]
      exact ⟨StudyError.invalidCorrectAnswerIndex, rfl⟩
    · rw [if_pos (by simp [hval])]
      exact ⟨StudyError.schemaViolation, rfl⟩

/-- C9 witness: the concrete valid quiz passes validation and is returned
unchanged with every index in range. -/
theorem quiz_out_of_range_index_rejected_witness :
    sampleQuiz = sampleQuiz ∧ ∀ q ∈ sampleQuiz.questions,
      0 ≤ q.correct_answer_index ∧ q.correct_answer_index < (q.options.length : Int) :=
  quiz_out_of_range_index_rejected.1 sampleQuiz sampleQuiz (by rfl)

/-- C10: each response source previews the chunk text exactly (full text when
at most 200 characters, else the first 200 characters plus `"..."`, so never
more than 203 characters), and carries the similarity score rounded to 3
decimal places (a multiple of 1/1000 within 1/2000 of the true score). -/
theorem source_preview_truncation_and_rounding :
    ∀ (c : Chunk) (score : Rat),
      ((mkDocumentSource c score).text
          = if 200 < c.text_content.length
            then c.text_content.take 200 ++ ['.', '.', '.']
            else c.text_content) ∧
      (mkDocumentSource c score).text.length ≤ 203 ∧
      (c.text_content.length ≤ 200 → (mkDocumentSource c score).text = c.text_content) ∧
      (mkDocumentSource c score).similarity_score * 1000 = ((round (score * 1000) : Int) : Rat) ∧
      |(mkDocumentSource c score).similarity_score - score| ≤ 1 / 2000 := by
  intro c score
  refine ⟨rfl, ?_, ?_, ?_, ?_⟩
  · simp only [mkDocumentSource]
    by_cases h : 200 < c.text_content.length
    · rw [if_pos h]
      simp [List.length_take]
    · rw [if_neg h]
      omega
  · intro h
    simp only [mkDocumentSource]
    rw [if_neg (by omega)]
  · simp only [mkDocumentSource, round3]
    ring
  · simp only [mkDocumentSource, round3]
    have h : |((round (score * 1000) : Int) : Rat) - score * 1000| ≤ 1 / 2 := by
      rw [abs_sub_comm]
      simpa using abs_sub_round (score * 1000)
    have heq : ((round (score * 1000) : Int) : Rat) / 1000 - score
        = (((round (score * 1000) : Int) : Rat) - score * 1000) / 1000 := by
      ring
    rw [heq, abs_div]
    rw [show |(1000 : Rat)| = 1000 by norm_num]
    calc |((round (score * 1000) : Int) : Rat) - score * 1000| / 1000
        ≤ (1 / 2) / 1000 := by
          apply (div_le_div_iff_of_pos_right (by norm_num)).mpr h
    _ = 1 / 2000 := by norm_num

/-- C10 witness: a one-character chunk text is previewed whole, and 0.1 rounds
to itself (0.100). -/
theorem source_preview_truncation_and_rounding_witness :
    chunkA.text_content.length ≤ 200 ∧
    (mkDocumentSource chunkA (0.1 : Rat)).text = chunkA.text_content :=
  ⟨by decide, (source_preview_truncation_and_rounding chunkA (0.1 : Rat)).2.2.1 (by decide)⟩

end SyllabusAI
